import Mathlib

/-!
# Verification of the PKGBUILD variable model of `mpr-cli`

Shallow embedding of the core of `pkgbuild.go`: the in-place variable
patcher (`updateVar`), the architecture merge layer (`getVariablesMerged`),
the map-level accessors (`getVariable`, `getSingleVariable`, `getHashes`,
`getSources`) and the document cache (`writeContents` / `getVariables`).

Texts are modelled as `List Char` (Go strings are byte slices; all inputs
of interest here are ASCII, so characters and bytes coincide).  Go's
`strings.Index` is modelled by `strIndex` returning `Option Nat` instead
of `-1`; a Go runtime panic (string index out of range) is modelled by the
`GoResult.outOfRange` constructor.
-/

namespace MprCli

abbrev Str := List Char

/-- The single-quote character (ASCII 39). -/
def sq : Char := Char.ofNat 39

/-- The double-quote character (ASCII 34). -/
def dq : Char := Char.ofNat 34

/-- The backslash character (ASCII 92). -/
def bs : Char := Char.ofNat 92

/-- Go's `unicode.IsSpace`: ASCII whitespace plus the Unicode
`White_Space` code points. -/
def goIsSpace (c : Char) : Bool :=
  c.toNat = 9 || c.toNat = 10 || c.toNat = 11 || c.toNat = 12 ||
  c.toNat = 13 || c.toNat = 32 || c.toNat = 133 || c.toNat = 160 ||
  c.toNat = 5760 || (8192 ≤ c.toNat && c.toNat ≤ 8202) ||
  c.toNat = 8232 || c.toNat = 8233 || c.toNat = 8239 ||
  c.toNat = 8287 || c.toNat = 12288

/-- Go's `strings.Index source pat`: position of the first occurrence of
`pat` as a contiguous substring of `source`; `none` models Go's `-1`. -/
def strIndex : Str → Str → Option Nat
  | [], pat => if pat.isPrefixOf ([] : Str) then some 0 else none
  | c :: rest, pat =>
    if pat.isPrefixOf (c :: rest) then some 0
    else (strIndex rest pat).map (· + 1)

/-- Go's `strings.IndexFunc`: position of the first character satisfying
`f`; `none` models Go's `-1`. -/
def indexFunc (f : Char → Bool) : Str → Option Nat
  | [] => none
  | c :: rest => if f c then some 0 else (indexFunc f rest).map (· + 1)

/-- Outcome of a Go function that can return a "variable not found" error
or hit a runtime panic (string index out of range, or the explicit
`panic` call in `updateVar`). -/
inductive GoResult (α : Type) where
  | ok (val : α)
  | varNotFound
  | outOfRange
deriving DecidableEq, Repr

/-- The quote-closing scan of `updateVar` (`pkgbuild.go` lines 247-264):

    for {
        varEnd = strings.Index(source[varEnd+1:], "'") + varEnd + 2
        if source[varEnd-1] != '\\' { break }
        varEnd++
    }

`none` models a Go panic (slicing `source[varEnd+1:]` with
`varEnd+1 > len(source)`, or indexing `source[varEnd-1]` out of range).
The `fuel` argument only bounds the loop: each iteration strictly
increases `varEnd` and the loop exits once `varEnd` reaches the end of
the text, so any `fuel > source.length` is never exhausted.
`nextQuotePos` is the update
`varEnd = strings.Index(source[varEnd+1:], delim) + varEnd + 2` of one
iteration (with `Index` returning `-1` when no delimiter is found). -/
def nextQuotePos (source : Str) (delim : Char) (varEnd : Nat) : Nat :=
  match strIndex (source.drop (varEnd + 1)) [delim] with
  | none => varEnd + 1
  | some idx => idx + varEnd + 2

def scanQuote (source : Str) (delim : Char) : Nat → Nat → Option Nat
  | 0, _ => none
  | fuel + 1, varEnd =>
    if source.length < varEnd + 1 then none
    else if nextQuotePos source delim varEnd - 1 < source.length then
      if source.getD (nextQuotePos source delim varEnd - 1) delim = bs then
        scanQuote source delim fuel (nextQuotePos source delim varEnd + 1)
      else some (nextQuotePos source delim varEnd)
    else none

/-- The span-location logic of `updateVar` (`pkgbuild.go` lines 227-274):
finds the first occurrence of `varName ++ "="`, lets `start` be the
position immediately after the `=`, and computes `varEnd` by dispatching
on `source[start]` (single quote, double quote, open parenthesis, or bare
word).  Returns the value span `[start, varEnd)`. -/
def findSpan (source varName : Str) : GoResult (Nat × Nat) :=
  let varPfx := varName ++ ['=']
  match strIndex source varPfx with
  | none => .varNotFound
  | some varPfxStart =>
    let start := varPfxStart + varPfx.length
    if (source.drop varPfxStart).take varPfx.length ≠ varPfx then
      -- the explicit `panic("this should never happen: ...")` in the source
      .outOfRange
    else if start < source.length then
      let c := source.getD start ' '
      if c = sq then
        match scanQuote source sq (source.length + 2) start with
        | none => .outOfRange
        | some varEnd => .ok (start, varEnd)
      else if c = dq then
        match scanQuote source dq (source.length + 2) start with
        | none => .outOfRange
        | some varEnd => .ok (start, varEnd)
      else if c = '(' then
        let varEnd :=
          match strIndex (source.drop start) [')'] with
          | none => start
          | some idx => idx + start + 1
        .ok (start, varEnd)
      else
        let varEnd :=
          match indexFunc goIsSpace (source.drop start) with
          | none => start + (source.drop start).length
          | some idx => start + idx
        .ok (start, varEnd)
    else
      -- `source[start]` with `start = len(source)`: index out of range
      .outOfRange

/-- `updateVar` (`pkgbuild.go` lines 221-284) as a pure text transform:
replaces the value span located by `findSpan` with `newValue` via
`source[:start] + newValue + source[varEnd:]`.  (The write-back of the
result to the document is modelled separately by the document-cache state
machine below.) -/
def updateVar (source varName newValue : Str) : GoResult Str :=
  match findSpan source varName with
  | .varNotFound => .varNotFound
  | .outOfRange => .outOfRange
  | .ok (start, varEnd) => .ok (source.take start ++ newValue ++ source.drop varEnd)

/-- The exact characters of the located value span `[start, varEnd)`:
the "current value literal" of an assignment, as the patcher sees it. -/
def getVarLiteral (source varName : Str) : GoResult Str :=
  match findSpan source varName with
  | .varNotFound => .varNotFound
  | .outOfRange => .outOfRange
  | .ok (start, varEnd) => .ok ((source.drop start).take (varEnd - start))

/-- The four well-formed assignment-value shapes of the spec's span rules
(`§4.4`): bare word (no whitespace inside, terminated by whitespace or
end of text), single-quoted, double-quoted (content free of the closing
delimiter), and array-parenthesized (content free of the closing
parenthesis). -/
inductive WfValue : Str → Str → Prop where
  | bare (v : Char) (V2 B : Str)
      (hsq : v ≠ sq) (hdq : v ≠ dq) (hpar : v ≠ '(')
      (hws : ∀ c ∈ v :: V2, goIsSpace c = false)
      (hB : B = [] ∨ ∃ b B2, B = b :: B2 ∧ goIsSpace b = true) :
      WfValue (v :: V2) B
  | singleQuoted (content B : Str) (hc : sq ∉ content) :
      WfValue (sq :: (content ++ [sq])) B
  | doubleQuoted (content B : Str) (hc : dq ∉ content) :
      WfValue (dq :: (content ++ [dq])) B
  | arrayParen (content B : Str) (hc : ')' ∉ content) :
      WfValue ('(' :: (content ++ [')'])) B

/-- Split a character list into maximal whitespace-free words
(shell word splitting on a simple literal). -/
def splitWords : Str → Str → List Str
  | [], acc => if acc = [] then [] else [acc.reverse]
  | c :: rest, acc =>
    if goIsSpace c then
      if acc = [] then splitWords rest [] else acc.reverse :: splitWords rest []
    else splitWords rest (c :: acc)

/-- Strip a matching pair of outer quotes from a word, if present. -/
def stripOuterQuotes (w : Str) : Str :=
  match w with
  | c :: rest =>
    if (c = sq ∨ c = dq) ∧ rest ≠ [] ∧ rest.getLast? = some c then rest.dropLast
    else w
  | [] => w

/-- Modelled from the spec: the list of values a shell assignment with the
given value literal contributes to the variable mapping.  The extraction
mechanism itself (`pkgbuild-var-printer.sh` sourcing the document under
`bash` and dumping the shell variable table) delegates evaluation to an
external shell, which is outside this repository; this model covers the
simple literals of the four assignment styles: quoted scalars yield the
unquoted content, an array literal yields one value per
whitespace-separated element (in order, outer quotes stripped), and a
bare word yields itself. -/
def shellValues (lit : Str) : List Str :=
  match lit with
  | c :: rest =>
    if c = '(' ∧ rest.getLast? = some ')' then
      (splitWords rest.dropLast []).map stripOuterQuotes
    else [stripOuterQuotes lit]
  | [] => [[]]

/-- Modelled from the spec: re-reading a variable of a patched document.
`getVariable` re-runs the shell extraction on the stored text; bash being
external to the repository, the extraction of the (unique, well-formed)
assignment is modelled as locating its value literal by the span rules
and interpreting that literal with `shellValues`. -/
def getVariableModel (source name : Str) : GoResult (List Str) :=
  match getVarLiteral source name with
  | .ok lit => .ok (shellValues lit)
  | .varNotFound => .varNotFound
  | .outOfRange => .outOfRange

/-! ## The variable mapping -/

/-- The cached variable mapping of a document: Go's `map[string][]string`,
modelled as an association list with unique keys.  Iteration order of a Go
map is unspecified; the operations verified below either do not depend on
it or are stated for the concrete entry order given. -/
abbrev VarMap := List (Str × List Str)

def alistLookup : VarMap → Str → Option (List Str)
  | [], _ => none
  | (k, v) :: rest, name => if k = name then some v else alistLookup rest name

/-- Replace the binding of `k` (or append a new one at the end). -/
def alistSet : VarMap → Str → List Str → VarMap
  | [], k, v => [(k, v)]
  | (k2, v2) :: rest, k, v =>
    if k2 = k then (k, v) :: rest else (k2, v2) :: alistSet rest k v

/-- Typed stand-ins for the `fmt.Errorf` failures of the accessors. -/
inductive PkgErr where
  | varMissing (name : Str)
  | multiValued (name : Str) (n : Nat)
  | lengthMismatch
deriving DecidableEq, Repr

inductive Res (α : Type) where
  | ok (val : α)
  | err (e : PkgErr)
deriving DecidableEq, Repr

/-- `getVariable` (`pkgbuild.go` lines 195-206) on the cached raw mapping:
note that the Go method reads `p.getVariables()`, the *raw* mapping, not
`getVariablesMerged`. -/
def getVariable (vars : VarMap) (name : Str) : Res (List Str) :=
  match alistLookup vars name with
  | some val => .ok val
  | none => .err (.varMissing name)

/-- `getSingleVariable` (`pkgbuild.go` lines 208-219). -/
def getSingleVariable (vars : VarMap) (name : Str) : Res Str :=
  match getVariable vars name with
  | .err e => .err e
  | .ok val =>
    if val.length ≠ 1 then .err (.multiValued name val.length)
    else .ok (val.headD [])

/-- The recognized hash-family variable names, in precedence order
(`pkgbuild.go` line 289). -/
def hashNames : List Str :=
  [("cksums").toList, ("md5sums").toList, ("sha1sums").toList,
   ("sha224sums").toList, ("sha256sums").toList, ("sha384sums").toList,
   ("sha512sums").toList, ("b2sums").toList]

/-- The scan of `getHashes`: value of the first present family. -/
def firstHashFamily : List Str → VarMap → Option (List Str)
  | [], _ => none
  | n :: rest, vars =>
    match alistLookup vars n with
    | some val => some val
    | none => firstHashFamily rest vars

/-- `getHashes` (`pkgbuild.go` lines 286-298): the first hash family
present wins; if none exists it returns an *empty slice and no error*. -/
def getHashes (vars : VarMap) : Res (List Str) :=
  match firstHashFamily hashNames vars with
  | some val => .ok val
  | none => .ok []

/-- Go's `filepath.Base` on a slash-separated path. -/
def filepathBase (path : Str) : Str :=
  if path = [] then ['.']
  else
    let p := (path.reverse.dropWhile (· = '/')).reverse
    let b := (p.reverse.takeWhile (· ≠ '/')).reverse
    if b = [] then ['/'] else b

structure PKGBUILD_source where
  localName : Str
  remoteURL : Str
  hash : Str
deriving DecidableEq, Repr

/-- One entry of `getSources` (`pkgbuild.go` lines 314-327): local name
defaults to the last path segment; a `name::url` spec overrides both. -/
def mkSource (spec hash : Str) : PKGBUILD_source :=
  match strIndex spec (':' :: [':']) with
  | none => { localName := filepathBase spec, remoteURL := spec, hash := hash }
  | some i =>
    { localName := spec.take i, remoteURL := spec.drop (i + 2), hash := hash }

/-- `getSources` (`pkgbuild.go` lines 300-331) on the cached raw mapping. -/
def getSources (vars : VarMap) : Res (List PKGBUILD_source) :=
  match getHashes vars with
  | .err e => .err e
  | .ok hashesVar =>
    match getVariable vars (("source").toList) with
    | .err e => .err e
    | .ok sourceVar =>
      if hashesVar.length ≠ sourceVar.length then .err .lengthMismatch
      else .ok (List.zipWith mkSource sourceVar hashesVar)

/-! ## The architecture merge layer -/

/-- Go's `strings.HasSuffix`. -/
def hasSuffix (s suffix : Str) : Bool := suffix.isSuffixOf s

/-- Go's `strings.TrimSuffix`. -/
def trimSuffix (s suffix : Str) : Str :=
  if suffix.isSuffixOf s then s.take (s.length - suffix.length) else s

/-- One iteration of the merge loop of `getVariablesMerged`
(`pkgbuild.go` lines 176-190), visiting the entry named `name`: if the
name carries the host-architecture suffix, the suffix-stripped base
entry is extended (current base values first, architecture-specific
values appended; a missing base entry counts as empty). -/
def mergeStep (arch : Str) (m : VarMap) (name : Str) : VarMap :=
  if hasSuffix name ('_' :: arch) then
    let baseName := trimSuffix name ('_' :: arch)
    match alistLookup m name with
    | some val => alistSet m baseName ((alistLookup m baseName).getD [] ++ val)
    | none => m
  else m

/-- The merge loop of `getVariablesMerged` (`pkgbuild.go` lines 163-193)
as a function of the mapping and the host architecture (`runtime.GOARCH`):
every entry of the mapping is visited once, values being read from the
evolving mapping at visit time (Go's `range` over the mutating map). -/
def mergeArchVariables (arch : Str) (m : VarMap) : VarMap :=
  (m.map Prod.fst).foldl (mergeStep arch) m

/-- The Go method `getVariablesMerged` observed at the state level: the
local `vars := *varsAddr` copies only the map header, so the in-place
merge writes through to the cached map as well — after the call the
cache and the returned map are the same (merged) object.  Returns
`(returned map, cache after the call)`. -/
def getVariablesMergedState (arch : Str) (cache : VarMap) : VarMap × VarMap :=
  (mergeArchVariables arch cache, mergeArchVariables arch cache)

/-! ## The document cache -/

/-- A document held in memory (`NewPKGBUILDFromContents`): the current
text and the memoized variable extraction (`allVariables` together with
`allVariablesErr`, guarded by `allVariablesOnce`; `none` models a cleared
`sync.Once`). -/
structure DocState where
  contents : Str
  varsCache : Option (Res VarMap)
deriving DecidableEq, Repr

def initDoc (contents : Str) : DocState :=
  { contents := contents, varsCache := none }

/-- `getVariables` (`pkgbuild.go` lines 99-161): the shell extraction of
the current text, memoized.  The extraction itself runs `bash` on the
text ( `pkgbuild-var-printer.sh`), modelled abstractly by the function
`extract` of the text. -/
def getVariablesDoc (extract : Str → Res VarMap) (s : DocState) :
    Res VarMap × DocState :=
  match s.varsCache with
  | some r => (r, s)
  | none =>
    (extract s.contents, { s with varsCache := some (extract s.contents) })

/-- A successful `writeContents` (`pkgbuild.go` lines 77-91): store the
new text and reset `allVariablesOnce` / `allVariables` /
`allVariablesErr`. -/
def writeContentsDoc (s : DocState) (newContents : Str) : DocState :=
  { s with contents := newContents, varsCache := none }

/-- `updateVar` at the document level: on success the patched text is
written back (invalidating the cache); on failure the document is left
untouched. -/
def updateVarDoc (s : DocState) (name newValue : Str) :
    GoResult Unit × DocState :=
  match updateVar s.contents name newValue with
  | .ok newText => (.ok (), writeContentsDoc s newText)
  | .varNotFound => (.varNotFound, s)
  | .outOfRange => (.outOfRange, s)

/-- The document states reachable from a freshly constructed in-memory
document through the operations the program performs on it
(`getVariables` and all accessors built on it, successful write-backs,
and `updateVar`). -/
inductive Reachable (extract : Str → Res VarMap) : DocState → Prop where
  | init (c : Str) : Reachable extract (initDoc c)
  | getVars {s : DocState} :
      Reachable extract s → Reachable extract (getVariablesDoc extract s).2
  | write {s : DocState} (c : Str) :
      Reachable extract s → Reachable extract (writeContentsDoc s c)
  | update {s : DocState} (n v : Str) :
      Reachable extract s → Reachable extract (updateVarDoc s n v).2

/-! ## Helper lemmas -/

theorem isPrefixOf_iff_take (p l : Str) : p.isPrefixOf l = true ↔ l.take p.length = p := by
  rw [List.isPrefixOf_iff_prefix]
  constructor
  · intro h; exact (List.prefix_iff_eq_take.mp h).symm
  · intro h; exact List.prefix_iff_eq_take.mpr h.symm

theorem strIndex_nil_pat (s : Str) : strIndex s ([] : Str) = some 0 := by
  cases s <;> simp [strIndex, List.isPrefixOf]

theorem strIndex_bound {s pat : Str} {i : Nat} (h : strIndex s pat = some i) :
    i + pat.length ≤ s.length := by
  induction s generalizing i with
  | nil =>
    rw [strIndex] at h
    split at h
    · rename_i hp
      have := (isPrefixOf_iff_take pat []).mp hp
      simp at this
      simp_all
    · simp at h
  | cons c rest ih =>
    rw [strIndex] at h
    split at h
    · rename_i hp
      have ht := (isPrefixOf_iff_take pat (c :: rest)).mp hp
      have hlen := congrArg List.length ht
      rw [List.length_take] at hlen
      simp at h
      simp [List.length_cons] at hlen ⊢
      omega
    · rcases Option.map_eq_some'.mp h with ⟨j, hj, rfl⟩
      have := ih hj
      simp
      omega

theorem strIndex_take {s pat : Str} {i : Nat} (h : strIndex s pat = some i) :
    (s.drop i).take pat.length = pat := by
  induction s generalizing i with
  | nil =>
    rw [strIndex] at h
    split at h
    · rename_i hp
      have := (isPrefixOf_iff_take pat []).mp hp
      simp_all
    · simp at h
  | cons c rest ih =>
    rw [strIndex] at h
    split at h
    · rename_i hp
      have ht := (isPrefixOf_iff_take pat (c :: rest)).mp hp
      simp at h
      subst h
      simpa using ht
    · rcases Option.map_eq_some'.mp h with ⟨j, hj, rfl⟩
      simpa using ih hj

theorem strIndex_congr {P X Y pat : Str} {i : Nat}
    (h : strIndex (P ++ X) pat = some i) (hle : i + pat.length ≤ P.length) :
    strIndex (P ++ Y) pat = some i := by
  induction P generalizing i with
  | nil =>
    rw [List.length_nil] at hle
    have hp : pat = [] := List.length_eq_zero.mp (by omega)
    have hi : i = 0 := by omega
    subst hp hi
    simpa using strIndex_nil_pat Y
  | cons p P2 ih =>
    rw [List.cons_append] at h ⊢
    rw [strIndex] at h ⊢
    by_cases hpre : pat.isPrefixOf (p :: (P2 ++ X)) = true
    · rw [if_pos hpre] at h
      simp at h
      subst h
      simp at hle
      have ht := (isPrefixOf_iff_take pat (p :: (P2 ++ X))).mp hpre
      have hY : pat.isPrefixOf (p :: (P2 ++ Y)) = true := by
        rw [isPrefixOf_iff_take]
        rw [show (p :: (P2 ++ X)) = (p :: P2) ++ X by simp] at ht
        rw [show (p :: (P2 ++ Y)) = (p :: P2) ++ Y by simp]
        rw [List.take_append_of_le_length (by simpa using hle)] at ht ⊢
        exact ht
      rw [if_pos hY]
    · rw [if_neg hpre] at h
      rcases Option.map_eq_some'.mp h with ⟨j, hj, rfl⟩
      simp at hle
      have hle2 : j + pat.length ≤ P2.length := by omega
      have hY : ¬ pat.isPrefixOf (p :: (P2 ++ Y)) = true := by
        intro hcon
        apply hpre
        rw [isPrefixOf_iff_take] at hcon ⊢
        rw [show (p :: (P2 ++ Y)) = (p :: P2) ++ Y by simp] at hcon
        rw [show (p :: (P2 ++ X)) = (p :: P2) ++ X by simp]
        rw [show ((p :: P2) ++ Y).take pat.length = (p :: P2).take pat.length from
          List.take_append_of_le_length (by simp; omega)] at hcon
        rw [List.take_append_of_le_length (by simp; omega)]
        exact hcon
      rw [if_neg hY]
      rw [ih hj hle2]
      rfl

theorem strIndex_singleton {c : Char} {xs ys : Str} (h : c ∉ xs) :
    strIndex (xs ++ c :: ys) [c] = some xs.length := by
  induction xs with
  | nil => simp [strIndex, List.isPrefixOf]
  | cons x xs ih =>
    have hx : c ≠ x := fun hc => h (by simp [hc])
    have hrest : c ∉ xs := fun hc => h (by simp [hc])
    rw [List.cons_append, strIndex]
    rw [if_neg (by simp [List.isPrefixOf, hx, Ne.symm hx])]
    rw [ih hrest]
    simp

theorem indexFunc_none {f : Char → Bool} {xs : Str} (h : ∀ c ∈ xs, f c = false) :
    indexFunc f xs = none := by
  induction xs with
  | nil => rfl
  | cons x xs ih =>
    rw [indexFunc, if_neg (by simp [h x (by simp)])]
    rw [ih fun c hc => h c (by simp [hc])]
    rfl

theorem indexFunc_append_head {f : Char → Bool} {xs : Str}
    (h : ∀ c ∈ xs, f c = false) {b : Char} (hb : f b = true) (ys : Str) :
    indexFunc f (xs ++ b :: ys) = some xs.length := by
  induction xs with
  | nil => simp [indexFunc, hb]
  | cons x xs ih =>
    rw [List.cons_append, indexFunc, if_neg (by simp [h x (by simp)])]
    rw [ih fun c hc => h c (by simp [hc])]
    simp

theorem indexFunc_bound {f : Char → Bool} {s : Str} {i : Nat}
    (h : indexFunc f s = some i) : i < s.length := by
  induction s generalizing i with
  | nil => simp [indexFunc] at h
  | cons c rest ih =>
    rw [indexFunc] at h
    split at h
    · simp at h ⊢; omega
    · rcases Option.map_eq_some'.mp h with ⟨j, hj, rfl⟩
      have := ih hj
      simp
      omega

theorem getD_drop (l : Str) (n k : Nat) (d : Char) :
    (l.drop n).getD k d = l.getD (n + k) d := by
  simp [List.getD_eq_getElem?_getD, List.getElem?_drop]

theorem getD_append_len (xs : Str) (c : Char) (ys : Str) (d : Char) :
    (xs ++ c :: ys).getD xs.length d = c := by
  induction xs with
  | nil => rfl
  | cons x xs ih => simpa using ih

theorem take_one_getD {l : Str} {c : Char} (h : l.take 1 = [c]) (d : Char) :
    l.getD 0 d = c := by
  cases l with
  | nil => simp at h
  | cons x rest => simp at h; simp [h]

/-! ## Lemmas about the quote-closing scan -/

theorem nextQuotePos_ge (source : Str) (delim : Char) (varEnd : Nat) :
    varEnd + 1 ≤ nextQuotePos source delim varEnd := by
  rw [nextQuotePos]
  split <;> omega

theorem scanQuote_bounds {source : Str} {delim : Char} {f : Nat} :
    ∀ {varEnd r : Nat}, scanQuote source delim f varEnd = some r →
      varEnd + 1 ≤ r ∧ r ≤ source.length := by
  induction f with
  | zero => intro varEnd r h; simp [scanQuote] at h
  | succ f ih =>
    intro varEnd r h
    rw [scanQuote] at h
    split at h
    · simp at h
    · split at h
      · split at h
        · have := ih h
          have := nextQuotePos_ge source delim varEnd
          omega
        · simp at h
          have := nextQuotePos_ge source delim varEnd
          omega
      · simp at h

theorem getD_default_irrel (l : Str) (k : Nat) (d d2 : Char) (h : k < l.length) :
    l.getD k d = l.getD k d2 := by
  rw [List.getD_eq_getElem?_getD, List.getD_eq_getElem?_getD,
    List.getElem?_eq_getElem h]
  rfl

/-- The character found by `strIndex` for a singleton pattern. -/
theorem strIndex_singleton_getD {source : Str} {delim : Char} {n idx : Nat}
    (hidx : strIndex (source.drop n) [delim] = some idx) :
    source.getD (n + idx) ' ' = delim := by
  have ht := strIndex_take hidx
  have h0 := take_one_getD (by simpa using ht) ' '
  simp only [getD_drop] at h0
  simpa using h0

/-- When the scan starts on a delimiter character (as it always does when
entered from `updateVar`), it returns after the first iteration: the
"skip an escaped delimiter" test compares the character at `varEnd - 1` —
the *found delimiter itself* (or the opening delimiter when none is
found) — with a backslash, which never matches. -/
theorem scanQuote_first {source : Str} {delim : Char} {start : Nat}
    (h : start < source.length) (hd : source.getD start ' ' = delim)
    (hdelim : delim ≠ bs) (f : Nat) :
    scanQuote source delim (f + 1) start = some (nextQuotePos source delim start) := by
  rw [scanQuote]
  rw [if_neg (by omega)]
  rcases hidx : strIndex (source.drop (start + 1)) [delim] with _ | idx
  · have hpos : nextQuotePos source delim start = start + 1 := by
      rw [nextQuotePos, hidx]
    rw [hpos, Nat.add_sub_cancel]
    rw [if_pos h]
    rw [getD_default_irrel source start delim ' ' h, hd]
    rw [if_neg hdelim]
  · have hpos : nextQuotePos source delim start = idx + start + 2 := by
      rw [nextQuotePos, hidx]
    have hbound := strIndex_bound hidx
    rw [List.length_drop] at hbound
    simp only [List.length_singleton] at hbound
    have hch : source.getD (idx + start + 1) ' ' = delim := by
      have := strIndex_singleton_getD hidx
      rw [show start + 1 + idx = idx + start + 1 by omega] at this
      exact this
    rw [hpos]
    rw [show idx + start + 2 - 1 = idx + start + 1 by omega]
    rw [if_pos (by omega)]
    rw [getD_default_irrel source (idx + start + 1) delim ' ' (by omega), hch]
    rw [if_neg hdelim]


theorem scanQuote_entry {source : Str} {delim : Char} {start : Nat}
    (h : start < source.length) (hd : source.getD start ' ' = delim)
    (hdelim : delim ≠ bs) :
    scanQuote source delim (source.length + 2) start
      = some (nextQuotePos source delim start) :=
  scanQuote_first h hd hdelim (source.length + 1)

theorem getD_of_drop {source rest : Str} {start : Nat}
    (hdrop : source.drop start = rest) (k : Nat) (d : Char) :
    source.getD (start + k) d = rest.getD k d := by
  rw [← hdrop, getD_drop]

theorem findSpan_core (source name V B : Str) (p : Nat)
    (hfind : strIndex source (name ++ ['=']) = some p)
    (hdrop : source.drop (p + (name.length + 1)) = V ++ B)
    (hwf : WfValue V B) :
    findSpan source name = .ok (p + (name.length + 1), p + (name.length + 1) + V.length) := by
  have hsan := strIndex_take hfind
  have hlen := strIndex_bound hfind
  simp only [List.length_append, List.length_singleton] at hsan hlen
  have hlen2 : source.length = (p + (name.length + 1)) + V.length + B.length := by
    have hl := congrArg List.length hdrop
    rw [List.length_drop] at hl
    simp only [List.length_append] at hl
    omega
  simp only [findSpan, hfind, List.length_append, List.length_singleton]
  rw [if_neg (by simp [hsan])]
  cases hwf with
  | singleQuoted content B hc =>
    have hVlen : (sq :: (content ++ [sq]) : Str).length = content.length + 2 := by simp
    rw [hVlen] at hlen2
    rw [if_pos (by omega)]
    have hg : source.getD (p + (name.length + 1)) ' ' = sq := by
      have := getD_of_drop hdrop 0 ' '
      simpa using this
    rw [if_pos hg]
    have hdrop1 : source.drop (p + (name.length + 1) + 1) = content ++ sq :: B := by
      rw [← List.drop_drop 1 (p + (name.length + 1)) source, hdrop]
      simp
    have hnext : nextQuotePos source sq (p + (name.length + 1))
        = content.length + (p + (name.length + 1)) + 2 := by
      rw [nextQuotePos, hdrop1, strIndex_singleton hc]
    rw [scanQuote_entry (by omega) hg (by decide), hnext]
    rw [hVlen]
    have : content.length + (p + (name.length + 1)) + 2
        = p + (name.length + 1) + (content.length + 2) := by omega
    rw [this]
  | doubleQuoted content B hc =>
    have hVlen : (dq :: (content ++ [dq]) : Str).length = content.length + 2 := by simp
    rw [hVlen] at hlen2
    rw [if_pos (by omega)]
    have hg : source.getD (p + (name.length + 1)) ' ' = dq := by
      have := getD_of_drop hdrop 0 ' '
      simpa using this
    rw [if_neg (by rw [hg]; decide)]
    rw [if_pos hg]
    have hdrop1 : source.drop (p + (name.length + 1) + 1) = content ++ dq :: B := by
      rw [← List.drop_drop 1 (p + (name.length + 1)) source, hdrop]
      simp
    have hnext : nextQuotePos source dq (p + (name.length + 1))
        = content.length + (p + (name.length + 1)) + 2 := by
      rw [nextQuotePos, hdrop1, strIndex_singleton hc]
    rw [scanQuote_entry (by omega) hg (by decide), hnext]
    rw [hVlen]
    have : content.length + (p + (name.length + 1)) + 2
        = p + (name.length + 1) + (content.length + 2) := by omega
    rw [this]
  | arrayParen content B hc =>
    have hVlen : ('(' :: (content ++ [')']) : Str).length = content.length + 2 := by simp
    rw [hVlen] at hlen2
    rw [if_pos (by omega)]
    have hg : source.getD (p + (name.length + 1)) ' ' = '(' := by
      have := getD_of_drop hdrop 0 ' '
      simpa using this
    rw [if_neg (by rw [hg]; decide)]
    rw [if_neg (by rw [hg]; decide)]
    rw [if_pos hg]
    have hidx : strIndex (source.drop (p + (name.length + 1))) [')']
        = some (content.length + 1) := by
      rw [hdrop]
      have : ('(' :: (content ++ [')']) : Str) ++ B = ('(' :: content) ++ ')' :: B := by simp
      rw [this]
      have hnotin : ')' ∉ ('(' :: content : Str) := by
        intro hmem
        rcases List.mem_cons.mp hmem with h1 | h2
        · exact absurd h1 (by decide)
        · exact hc h2
      simpa using strIndex_singleton hnotin
    have harith : content.length + 1 + (p + (name.length + 1)) + 1
        = p + (name.length + 1) + (content.length + 2) := by omega
    rw [hidx, hVlen, ← harith]
  | bare v V2 B hsq2 hdq2 hpar hws hB =>
    have hVlen : (v :: V2 : Str).length = V2.length + 1 := by simp
    rw [hVlen] at hlen2
    rw [if_pos (by omega)]
    have hg : source.getD (p + (name.length + 1)) ' ' = v := by
      have := getD_of_drop hdrop 0 ' '
      simpa using this
    rw [if_neg (by rw [hg]; exact hsq2)]
    rw [if_neg (by rw [hg]; exact hdq2)]
    rw [if_neg (by rw [hg]; exact hpar)]
    rcases hB with hBnil | ⟨b, B2, hB2, hbspace⟩
    · subst hBnil
      rw [hdrop]
      rw [indexFunc_none (by simpa using hws)]
      simp
    · subst hB2
      rw [hdrop]
      rw [indexFunc_append_head hws hbspace B2]


theorem findSpan_bounds {source varName : Str} {s e : Nat}
    (h : findSpan source varName = .ok (s, e)) :
    s ≤ e ∧ e ≤ source.length := by
  simp only [findSpan] at h
  rcases hfind : strIndex source (varName ++ ['=']) with _ | p <;> rw [hfind] at h
  · simp at h
  · simp only [] at h
    split at h
    · simp at h
    · split at h
      · rename_i hlt
        split at h
        · split at h
          · simp at h
          · rename_i heq
            obtain ⟨h1, h2⟩ := scanQuote_bounds heq
            simp only [GoResult.ok.injEq, Prod.mk.injEq] at h
            obtain ⟨hs, he⟩ := h
            omega
        · split at h
          · split at h
            · simp at h
            · rename_i heq
              obtain ⟨h1, h2⟩ := scanQuote_bounds heq
              simp only [GoResult.ok.injEq, Prod.mk.injEq] at h
              obtain ⟨hs, he⟩ := h
              omega
          · split at h
            · -- array-parenthesis branch
              split at h
              · simp only [GoResult.ok.injEq, Prod.mk.injEq] at h
                obtain ⟨hs, he⟩ := h
                have hs2 : p + (varName ++ ['=']).length = s := hs
                have he2 : p + (varName ++ ['=']).length = e := he
                have hlt2 : p + (varName ++ ['=']).length < source.length := hlt
                omega
              · rename_i idx heq
                simp only [GoResult.ok.injEq, Prod.mk.injEq] at h
                obtain ⟨hs, he⟩ := h
                have hs2 : p + (varName ++ ['=']).length = s := hs
                have he2 : idx + (p + (varName ++ ['=']).length) + 1 = e := he
                have hlt2 : p + (varName ++ ['=']).length < source.length := hlt
                have hb : idx + ([')'] : Str).length
                    ≤ (source.drop (p + (varName ++ ['=']).length)).length :=
                  strIndex_bound heq
                rw [List.length_drop] at hb
                simp only [List.length_singleton] at hb
                omega
            · -- bare-word branch
              split at h
              · simp only [GoResult.ok.injEq, Prod.mk.injEq] at h
                obtain ⟨hs, he⟩ := h
                have hs2 : p + (varName ++ ['=']).length = s := hs
                have he2 : p + (varName ++ ['=']).length
                    + (source.drop (p + (varName ++ ['=']).length)).length = e := he
                have hlt2 : p + (varName ++ ['=']).length < source.length := hlt
                rw [List.length_drop] at he2
                omega
              · rename_i idx heq
                simp only [GoResult.ok.injEq, Prod.mk.injEq] at h
                obtain ⟨hs, he⟩ := h
                have hs2 : p + (varName ++ ['=']).length = s := hs
                have he2 : p + (varName ++ ['=']).length + idx = e := he
                have hlt2 : p + (varName ++ ['=']).length < source.length := hlt
                have hb : idx < (source.drop (p + (varName ++ ['=']).length)).length :=
                  indexFunc_bound heq
                rw [List.length_drop] at hb
                omega
      · simp at h

theorem updateVar_core (source name V B newValue : Str) (p : Nat)
    (hfind : strIndex source (name ++ ['=']) = some p)
    (hdrop : source.drop (p + (name.length + 1)) = V ++ B)
    (hwf : WfValue V B) :
    updateVar source name newValue
      = .ok (source.take (p + (name.length + 1)) ++ newValue ++ B) := by
  have hspan := findSpan_core source name V B p hfind hdrop hwf
  simp only [updateVar, hspan]
  have hB : source.drop (p + (name.length + 1) + V.length) = B := by
    rw [← List.drop_drop V.length (p + (name.length + 1)) source, hdrop, List.drop_left]
  rw [hB]

theorem findSpan_outOfRange {text name : Str} :
    findSpan text name = .outOfRange ↔
      ∃ p, strIndex text (name ++ ['=']) = some p ∧
        text.length = p + name.length + 1 := by
  constructor
  · intro h
    simp only [findSpan] at h
    rcases hidx : strIndex text (name ++ ['=']) with _ | p <;> rw [hidx] at h
    · simp at h
    · simp only [] at h
      have hsan := strIndex_take hidx
      have hbound := strIndex_bound hidx
      simp only [List.length_append, List.length_singleton] at hsan hbound
      rw [if_neg (by simp [hsan])] at h
      by_cases hlt : p + (name ++ ['=']).length < text.length
      · exfalso
        rw [if_pos hlt] at h
        by_cases hsq : text.getD (p + (name ++ ['=']).length) ' ' = sq
        · rw [if_pos hsq, scanQuote_entry hlt hsq (by decide)] at h
          simp at h
        · rw [if_neg hsq] at h
          by_cases hdqc : text.getD (p + (name ++ ['=']).length) ' ' = dq
          · rw [if_pos hdqc, scanQuote_entry hlt hdqc (by decide)] at h
            simp at h
          · rw [if_neg hdqc] at h
            by_cases hpc : text.getD (p + (name ++ ['=']).length) ' ' = '('
            · rw [if_pos hpc] at h
              simp at h
            · rw [if_neg hpc] at h
              simp at h
      · rw [if_neg hlt] at h
        refine ⟨p, rfl, ?_⟩
        simp only [List.length_append, List.length_singleton] at hlt
        omega
  · rintro ⟨p, hidx, hlen⟩
    simp only [findSpan, hidx]
    have hsan := strIndex_take hidx
    simp only [List.length_append, List.length_singleton] at hsan
    rw [if_neg (by simp [hsan])]
    rw [if_neg (by simp only [List.length_append, List.length_singleton]; omega)]

theorem updateVar_outOfRange_iff {text name v : Str} :
    updateVar text name v = .outOfRange ↔ findSpan text name = .outOfRange := by
  simp only [updateVar]
  rcases hfs : findSpan text name with ⟨s, e⟩ | _ | _ <;> simp


theorem take_drop_span (text : Str) {s e : Nat} (hse : s ≤ e) :
    text.take s ++ (text.drop s).take (e - s) ++ text.drop e = text := by
  have hjoin : text.take s ++ (text.drop s).take (e - s) = text.take e := by
    rw [← List.take_add]
    rw [show s + (e - s) = e by omega]
  rw [hjoin, List.take_append_drop]

/-- Claim C7: patching a variable with the exact characters of its own
current value span `[valueStart, valueEnd)` reproduces the original text
byte for byte, for every text and variable on which the span computation
succeeds. -/
theorem C7_patch_roundtrip (text name lit : Str)
    (h : getVarLiteral text name = .ok lit) :
    updateVar text name lit = .ok text := by
  rcases hfs : findSpan text name with ⟨s, e⟩ | _ | _ <;>
    simp only [getVarLiteral, hfs] at h
  · obtain ⟨hse, hel⟩ := findSpan_bounds hfs
    simp only [GoResult.ok.injEq] at h
    subst h
    simp only [updateVar, hfs]
    rw [take_drop_span text hse]
  · simp at h
  · simp at h

theorem strIndex_shift (A name : Str) {X Y : Str}
    (hfind : strIndex ((A ++ (name ++ ['='])) ++ X) (name ++ ['=']) = some A.length) :
    strIndex ((A ++ (name ++ ['='])) ++ Y) (name ++ ['=']) = some A.length :=
  strIndex_congr hfind (by simp)

theorem patch_decomp (A name V B lit : Str)
    (hfind : strIndex (A ++ name ++ '=' :: (V ++ B)) (name ++ ['=']) = some A.length)
    (hwf : WfValue V B) :
    updateVar (A ++ name ++ '=' :: (V ++ B)) name lit
      = .ok (A ++ name ++ '=' :: (lit ++ B)) := by
  have hassoc : ∀ X : Str, A ++ name ++ '=' :: X = (A ++ (name ++ ['='])) ++ X := by
    intro X; simp
  have hplen : (A ++ (name ++ ['='])).length = A.length + (name.length + 1) := by
    simp
  have hdrop : (A ++ name ++ '=' :: (V ++ B)).drop (A.length + (name.length + 1))
      = V ++ B := by
    rw [hassoc, ← hplen, List.drop_left]
  have h1 := updateVar_core (A ++ name ++ '=' :: (V ++ B)) name V B lit A.length
    hfind hdrop hwf
  have htake : (A ++ name ++ '=' :: (V ++ B)).take (A.length + (name.length + 1))
      = A ++ (name ++ ['=']) := by
    rw [hassoc, ← hplen, List.take_left]
  rw [h1, htake]
  simp

theorem getVarLiteral_decomp (A name lit B : Str)
    (hfind : strIndex (A ++ name ++ '=' :: (lit ++ B)) (name ++ ['=']) = some A.length)
    (hwf : WfValue lit B) :
    getVarLiteral (A ++ name ++ '=' :: (lit ++ B)) name = .ok lit := by
  have hassoc : ∀ X : Str, A ++ name ++ '=' :: X = (A ++ (name ++ ['='])) ++ X := by
    intro X; simp
  have hplen : (A ++ (name ++ ['='])).length = A.length + (name.length + 1) := by
    simp
  have hdrop : (A ++ name ++ '=' :: (lit ++ B)).drop (A.length + (name.length + 1))
      = lit ++ B := by
    rw [hassoc, ← hplen, List.drop_left]
  have hspan := findSpan_core (A ++ name ++ '=' :: (lit ++ B)) name lit B A.length
    hfind hdrop hwf
  simp only [getVarLiteral, hspan]
  rw [Nat.add_sub_cancel_left, hdrop, List.take_left]


/-! ## Lemmas about the mapping-level accessors and the merge layer -/

theorem firstHashFamily_none {names : List Str} {vars : VarMap}
    (h : ∀ n ∈ names, alistLookup vars n = none) :
    firstHashFamily names vars = none := by
  induction names with
  | nil => rfl
  | cons n rest ih =>
    rw [firstHashFamily, h n (by simp)]
    exact ih fun m hm => h m (by simp [hm])

theorem hasSuffix_append (x s : Str) : hasSuffix (x ++ s) s = true := by
  simp [hasSuffix, List.isSuffixOf_iff_suffix]

theorem trimSuffix_append (x s : Str) : trimSuffix (x ++ s) s = x := by
  rw [trimSuffix, if_pos (by simp [List.isSuffixOf_iff_suffix])]
  rw [show (x ++ s).length - s.length = x.length by simp]
  exact List.take_left x s

theorem ne_append_cons (x : Str) (c : Char) (y : Str) : x ≠ x ++ c :: y := by
  intro h
  have hl := congrArg List.length h
  simp at hl

theorem c5_merge_once (arch foo : Str) (v1 v2 : List Str)
    (hfoo : hasSuffix foo ('_' :: arch) = false) :
    mergeArchVariables arch [(foo, v1), (foo ++ '_' :: arch, v2)]
      = [(foo, v1 ++ v2), (foo ++ '_' :: arch, v2)] := by
  have h1 : foo ≠ foo ++ '_' :: arch := ne_append_cons foo '_' arch
  have hb : (foo ++ '_' :: arch) ≠ foo := fun hh => h1 hh.symm
  have e1 : mergeStep arch [(foo, v1), (foo ++ '_' :: arch, v2)] foo
      = [(foo, v1), (foo ++ '_' :: arch, v2)] := by
    rw [mergeStep, if_neg (by simp [hfoo])]
  have e2 : mergeStep arch [(foo, v1), (foo ++ '_' :: arch, v2)] (foo ++ '_' :: arch)
      = [(foo, v1 ++ v2), (foo ++ '_' :: arch, v2)] := by
    rw [mergeStep, if_pos (by simp [hasSuffix_append]), trimSuffix_append]
    simp [alistLookup, alistSet, h1, hb]
  simp only [mergeArchVariables, List.map, List.foldl]
  rw [e1, e2]

theorem cacheFresh_aux (extract : Str → Res VarMap) {s : DocState}
    (h : Reachable extract s) :
    ∀ r, s.varsCache = some r → r = extract s.contents := by
  induction h with
  | init c =>
    intro r hr
    simp [initDoc] at hr
  | getVars hprev ih =>
    rename_i s0
    intro r hr
    rcases hc : s0.varsCache with _ | r0 <;> simp only [getVariablesDoc, hc] at hr ⊢
    · simp at hr
      subst hr
      simp
    · simp at hr
      subst hr
      exact ih _ hc
  | write c hprev ih =>
    intro r hr
    simp [writeContentsDoc] at hr
  | update n v hprev ih =>
    rename_i s0
    intro r hr
    rcases hu : updateVar s0.contents n v with t | _ | _ <;>
      simp only [updateVarDoc, hu] at hr ⊢
    · simp [writeContentsDoc] at hr
    · exact ih r hr
    · exact ih r hr

/-- Claim C6: for a raw mapping containing `foo`, `foo_<hostArch>` and
`foo_<otherArch>` (with `otherArch` different from the host architecture),
the merged entry for `foo` is exactly the base values followed by the
host-architecture values; the other architecture's values are never
merged in.  The entry shape is stated for the given declaration order;
only the single `foo_<hostArch>` entry writes to `foo`, so any iteration
order of the Go map yields the same `foo` entry. -/
theorem C6_arch_merge (arch other foo : Str) (v1 v2 v9 : List Str)
    (hfoo : hasSuffix foo ('_' :: arch) = false)
    (hother : hasSuffix (foo ++ '_' :: other) ('_' :: arch) = false)
    (hne : foo ++ '_' :: other ≠ foo ++ '_' :: arch) :
    alistLookup
      (mergeArchVariables arch
        [(foo, v1), (foo ++ '_' :: arch, v2), (foo ++ '_' :: other, v9)])
      foo = some (v1 ++ v2) := by
  have h1 : foo ≠ foo ++ '_' :: arch := ne_append_cons foo '_' arch
  have h2 : foo ≠ foo ++ '_' :: other := ne_append_cons foo '_' other
  have hb : (foo ++ '_' :: arch) ≠ foo := fun hh => h1 hh.symm
  have hc : (foo ++ '_' :: other) ≠ foo := fun hh => h2 hh.symm
  have hd : (foo ++ '_' :: arch) ≠ (foo ++ '_' :: other) := fun hh => hne hh.symm
  have e1 : mergeStep arch
      [(foo, v1), (foo ++ '_' :: arch, v2), (foo ++ '_' :: other, v9)] foo
      = [(foo, v1), (foo ++ '_' :: arch, v2), (foo ++ '_' :: other, v9)] := by
    rw [mergeStep, if_neg (by simp [hfoo])]
  have e2 : mergeStep arch
      [(foo, v1), (foo ++ '_' :: arch, v2), (foo ++ '_' :: other, v9)]
      (foo ++ '_' :: arch)
      = [(foo, v1 ++ v2), (foo ++ '_' :: arch, v2), (foo ++ '_' :: other, v9)] := by
    rw [mergeStep, if_pos (by simp [hasSuffix_append]), trimSuffix_append]
    simp [alistLookup, alistSet, h1, hb, hd]
  have e3 : mergeStep arch
      [(foo, v1 ++ v2), (foo ++ '_' :: arch, v2), (foo ++ '_' :: other, v9)]
      (foo ++ '_' :: other)
      = [(foo, v1 ++ v2), (foo ++ '_' :: arch, v2), (foo ++ '_' :: other, v9)] := by
    rw [mergeStep, if_neg (by simp [hother])]
  simp only [mergeArchVariables, List.map, List.foldl]
  rw [e1, e2, e3]
  simp [alistLookup]


/-! ## The claims -/

/-- Claim C1 counterexample: the universally quantified patch-frame
property fails on the code as stated.  First conjunct: with variable
`ver` present as an assignment (`aver=1` + `ver=2`), patching `ver`
rewrites `aver`'s value span (the raw substring search finds `ver=`
inside `aver=`), changing bytes outside `ver`'s span and leaving `ver`
at its old value.  Second conjunct: a single-quoted value containing a
backslash-escaped quote is cut at the escaped quote, so the replacement
corrupts the assignment (`x='a\\'b'` patched with `'Z'` becomes
`x='Z'b'`). -/
theorem C1_counterexample :
    updateVar (("aver=1\nver=2").toList) (("ver").toList) (("9").toList)
      = .ok (("aver=9\nver=2").toList) ∧
    updateVar (("x=").toList ++ sq :: ("a").toList ++ bs :: sq :: ("b").toList ++ [sq])
        (("x").toList) (sq :: ("Z").toList ++ [sq])
      = .ok (("x=").toList ++ sq :: ("Z").toList ++ sq :: ("b").toList ++ [sq]) := by
  decide

/-- Claim C1 (amended): for every decomposition `A ++ name ++ "=" ++ V ++ B`
of a text in which the *first* occurrence of `name=` starts the assignment
(at position `A.length`) and both the old value `V` and the new literal
`lit` are well-formed for one of the four styles (quoted/array content
free of the closing delimiter, bare word whitespace-free and followed by
whitespace or end of text), `updateVar` replaces exactly the value span:
the prefix `A ++ name ++ "="` and the suffix `B` (all later-declared
assignments included) are byte-identical to the original, whether `lit`
is longer or shorter than `V`, and re-reading the patched variable
returns exactly the new value. -/
theorem C1_patch_frame_readback (A name V B lit : Str)
    (hfind : strIndex (A ++ name ++ '=' :: (V ++ B)) (name ++ ['=']) = some A.length)
    (hV : WfValue V B) (hlit : WfValue lit B) :
    updateVar (A ++ name ++ '=' :: (V ++ B)) name lit
      = .ok (A ++ name ++ '=' :: (lit ++ B)) ∧
    getVariableModel (A ++ name ++ '=' :: (lit ++ B)) name
      = .ok (shellValues lit) := by
  constructor
  · exact patch_decomp A name V B lit hfind hV
  · have hassoc : ∀ X : Str, A ++ name ++ '=' :: X = (A ++ (name ++ ['='])) ++ X := by
      intro X; simp
    have hfind2 : strIndex (A ++ name ++ '=' :: (lit ++ B)) (name ++ ['='])
        = some A.length := by
      rw [hassoc] at hfind ⊢
      exact strIndex_shift A name hfind
    simp only [getVariableModel, getVarLiteral_decomp A name lit B hfind2 hlit]

theorem C1_patch_frame_readback_witness :
    updateVar (("a=1\n").toList ++ ("x").toList ++ '=' :: (("2").toList ++ ("\nz=3").toList))
        (("x").toList) (("9").toList)
      = .ok (("a=1\n").toList ++ ("x").toList ++ '=' :: (("9").toList ++ ("\nz=3").toList)) ∧
    getVariableModel
      (("a=1\n").toList ++ ("x").toList ++ '=' :: (("9").toList ++ ("\nz=3").toList))
      (("x").toList) = .ok (shellValues (("9").toList)) :=
  C1_patch_frame_readback ("a=1\n").toList ("x").toList ("2").toList ("\nz=3").toList
    ("9").toList (by decide)
    (WfValue.bare '2' [] ("\nz=3").toList (by decide) (by decide) (by decide)
      (by decide) (Or.inr ⟨'\n', ("z=3").toList, rfl, by decide⟩))
    (WfValue.bare '9' [] ("\nz=3").toList (by decide) (by decide) (by decide)
      (by decide) (Or.inr ⟨'\n', ("z=3").toList, rfl, by decide⟩))

/-- Claim C2: the escaped-delimiter skip of the value-end scan never
fires.  The loop exit test `source[varEnd-1] != '\\'` inspects the
*found delimiter itself* (at `varEnd - 1`), not the character before it,
so it always breaks — contradicting both the spec and the code's own
comment ("find the matching ', skipping over escape sequences").  On
`x='a\\'b'` the computed span is `[2, 6)` (just past the escaped quote at
index 5) instead of `[2, 8)` (just past the first unescaped quote at
index 7). -/
theorem C2_escape_scan_bug :
    findSpan (("x=").toList ++ sq :: ("a").toList ++ bs :: sq :: ("b").toList ++ [sq])
        (("x").toList) = .ok (2, 6) ∧
    findSpan (("x=").toList ++ sq :: ("a").toList ++ bs :: sq :: ("b").toList ++ [sq])
        (("x").toList) ≠ .ok (2, 8) := by
  decide

/-- Claim C3 counterexample: with no hash-family variable present,
`getSources` does *not* fail with a missing-variable error: `getHashes`
returns an empty list without error (pkgbuild.go lines 295-297), so a
nonempty `source` yields the length-mismatch error and an empty `source`
succeeds with an empty list. -/
theorem C3_counterexample :
    getSources [(("source").toList, [("a").toList])] = .err .lengthMismatch ∧
    getSources [(("source").toList, ([] : List Str))] = .ok [] := by
  decide

/-- Claim C3 (amended): if no variable of the recognized hash-family set
is present, `getHashes` succeeds with the empty list, and `getSources`
fails with `lengthMismatch` exactly when the `source` variable is
nonempty (succeeding with an empty source list when it is empty); a
missing-variable failure arises only for the `source` variable itself. -/
theorem C3_no_hash_family (vars : VarMap) (vs : List Str)
    (hno : ∀ n ∈ hashNames, alistLookup vars n = none)
    (hsrc : alistLookup vars (("source").toList) = some vs) :
    getHashes vars = .ok [] ∧
    (vs = [] → getSources vars = .ok []) ∧
    (vs ≠ [] → getSources vars = .err .lengthMismatch) := by
  have hh : getHashes vars = .ok [] := by
    rw [getHashes, firstHashFamily_none hno]
  refine ⟨hh, fun hnil => ?_, fun hne => ?_⟩
  · subst hnil
    simp only [getSources, hh, getVariable, hsrc]
    simp
  · simp only [getSources, hh, getVariable, hsrc]
    have hlen : (([] : List Str)).length ≠ vs.length := by
      simp only [List.length_nil]
      intro hcon
      exact hne (List.length_eq_zero.mp hcon.symm)
    rw [if_pos hlen]

theorem C3_no_hash_family_witness :
    getSources [(("source").toList, [("a").toList])] = .err .lengthMismatch :=
  (C3_no_hash_family [(("source").toList, [("a").toList])] [("a").toList]
    (by decide) (by decide)).2.2 (by decide)


/-- Claim C4 counterexample: the accessors read the *raw* cached mapping
(`getVariable` calls `getVariables`, pkgbuild.go line 196), not
`getVariablesMerged` — that method is defined but never invoked.  With a
raw mapping containing `source=[A]` and `source_amd64=[B]`, `getVariable
"source"` returns `[A]` while the merged view would be `[A, B]`, and
`getSources` likewise consumes only the raw `source` entry. -/
theorem C4_counterexample :
    getVariable
      [(("source").toList, [("A").toList]),
       (("source_amd64").toList, [("B").toList]),
       (("sha256sums").toList, [("H").toList])] (("source").toList)
      = .ok [("A").toList] ∧
    alistLookup
      (mergeArchVariables (("amd64").toList)
        [(("source").toList, [("A").toList]),
         (("source_amd64").toList, [("B").toList]),
         (("sha256sums").toList, [("H").toList])]) (("source").toList)
      = some [("A").toList, ("B").toList] ∧
    getSources
      [(("source").toList, [("A").toList]),
       (("source_amd64").toList, [("B").toList]),
       (("sha256sums").toList, [("H").toList])]
      = .ok [{ localName := ("A").toList, remoteURL := ("A").toList,
               hash := ("H").toList }] ∧
    ([("A").toList] : List Str) ≠ [("A").toList, ("B").toList] := by
  decide

/-- Claim C4 (amended): `getVariable` and `getSingleVariable` observe the
raw (unmerged) mapping: whatever entry the raw mapping holds for a name
is returned verbatim, irrespective of any architecture-suffixed sibling
entries (which are folded in only by the never-invoked
`getVariablesMerged`). -/
theorem C4_accessors_read_raw (m : VarMap) (name : Str) (v : List Str)
    (h : alistLookup m name = some v) :
    getVariable m name = .ok v ∧
    (v.length = 1 → getSingleVariable m name = .ok (v.headD [])) := by
  have hv : getVariable m name = .ok v := by rw [getVariable, h]
  refine ⟨hv, fun h1 => ?_⟩
  simp only [getSingleVariable, hv]
  rw [if_neg (by simp [h1])]

theorem C4_accessors_read_raw_witness :
    getSingleVariable
      [(("source").toList, [("A").toList]),
       (("source_amd64").toList, [("B").toList])] (("source").toList)
      = .ok (("A").toList) :=
  (C4_accessors_read_raw
    [(("source").toList, [("A").toList]),
     (("source_amd64").toList, [("B").toList])]
    (("source").toList) [("A").toList] (by decide)).2 (by decide)

/-- Claim C5 counterexample: the merge is *not* a pure function of the
raw mapping as claimed.  In Go, `vars := *varsAddr` copies only the map
header, so the in-place merge writes through to the cached raw map:
after one `getVariablesMerged` call the cache no longer equals the raw
mapping, and merging twice appends the architecture-specific values
twice (`foo` becomes `[1, 2, 2]`), so two computations do not yield the
result of one. -/
theorem C5_counterexample :
    (getVariablesMergedState (("amd64").toList)
        [(("foo").toList, [("1").toList]), (("foo_amd64").toList, [("2").toList])]).2
      ≠ [(("foo").toList, [("1").toList]), (("foo_amd64").toList, [("2").toList])] ∧
    mergeArchVariables (("amd64").toList)
        (mergeArchVariables (("amd64").toList)
          [(("foo").toList, [("1").toList]), (("foo_amd64").toList, [("2").toList])])
      ≠ mergeArchVariables (("amd64").toList)
          [(("foo").toList, [("1").toList]), (("foo_amd64").toList, [("2").toList])] := by
  decide

/-- Claim C5 (amended): a `getVariablesMerged` call replaces the cached
raw mapping by the merged one (the returned map aliases the cache), and
a second call on the unchanged document re-merges the already-merged
cache, appending the architecture-specific values a second time. -/
theorem C5_merge_mutates_cache (arch foo : Str) (v1 v2 : List Str)
    (hfoo : hasSuffix foo ('_' :: arch) = false) :
    (getVariablesMergedState arch [(foo, v1), (foo ++ '_' :: arch, v2)]).2
      = [(foo, v1 ++ v2), (foo ++ '_' :: arch, v2)] ∧
    (getVariablesMergedState arch
        ((getVariablesMergedState arch [(foo, v1), (foo ++ '_' :: arch, v2)]).2)).1
      = [(foo, (v1 ++ v2) ++ v2), (foo ++ '_' :: arch, v2)] := by
  have hone := c5_merge_once arch foo v1 v2 hfoo
  constructor
  · simpa [getVariablesMergedState] using hone
  · simp only [getVariablesMergedState, hone]
    exact c5_merge_once arch foo (v1 ++ v2) v2 hfoo

theorem C5_merge_mutates_cache_witness :
    (getVariablesMergedState (("amd64").toList)
        [(("foo").toList, [("1").toList]),
         (("foo").toList ++ '_' :: ("amd64").toList, [("2").toList])]).2
      = [(("foo").toList, [("1").toList] ++ [("2").toList]),
         (("foo").toList ++ '_' :: ("amd64").toList, [("2").toList])] ∧
    (getVariablesMergedState (("amd64").toList)
        ((getVariablesMergedState (("amd64").toList)
          [(("foo").toList, [("1").toList]),
           (("foo").toList ++ '_' :: ("amd64").toList, [("2").toList])]).2)).1
      = [(("foo").toList, ([("1").toList] ++ [("2").toList]) ++ [("2").toList]),
         (("foo").toList ++ '_' :: ("amd64").toList, [("2").toList])] :=
  C5_merge_mutates_cache (("amd64").toList) (("foo").toList)
    [("1").toList] [("2").toList] (by decide)

theorem C6_arch_merge_witness :
    alistLookup
      (mergeArchVariables (("amd64").toList)
        [(("foo").toList, [("1").toList]),
         (("foo").toList ++ '_' :: ("amd64").toList, [("2").toList]),
         (("foo").toList ++ '_' :: ("i386").toList, [("9").toList])])
      (("foo").toList) = some ([("1").toList] ++ [("2").toList]) :=
  C6_arch_merge (("amd64").toList) (("i386").toList) (("foo").toList)
    [("1").toList] [("2").toList] [("9").toList]
    (by decide) (by decide) (by decide)

theorem C7_patch_roundtrip_witness :
    updateVar (("a=1").toList) (("a").toList) (("1").toList) = .ok (("a=1").toList) :=
  C7_patch_roundtrip (("a=1").toList) (("a").toList) (("1").toList) (by decide)

/-- Claim C8: the cached variable mapping is never stale relative to the
current text.  A successful write-back always clears the memoized
mapping and its error; `getVariables` on a cleared cache recomputes from
the current text; and in every reachable document state a present
(Fresh) cached mapping equals the extraction of the current text.
(`extract` abstracts the shell extraction, a function of the text; the
reachable states cover the operations the program performs —
`getVariablesMerged` is never invoked in the repository.) -/
theorem C8_cache_never_stale (extract : Str → Res VarMap) (s : DocState)
    (h : Reachable extract s) :
    (∀ c, (writeContentsDoc s c).varsCache = none) ∧
    (s.varsCache = none → (getVariablesDoc extract s).1 = extract s.contents) ∧
    (∀ r, s.varsCache = some r → r = extract s.contents) := by
  refine ⟨fun c => rfl, fun hnone => ?_, cacheFresh_aux extract h⟩
  simp only [getVariablesDoc, hnone]

theorem C8_cache_never_stale_witness :
    (Res.ok [(("x").toList, [("a=1").toList])] : Res VarMap)
      = (fun t => Res.ok ([(("x").toList, [t])] : VarMap))
          ((getVariablesDoc (fun t => Res.ok ([(("x").toList, [t])] : VarMap))
            (initDoc (("a=1").toList))).2.contents) :=
  (C8_cache_never_stale (fun t => Res.ok ([(("x").toList, [t])] : VarMap))
      ((getVariablesDoc (fun t => Res.ok ([(("x").toList, [t])] : VarMap))
        (initDoc (("a=1").toList))).2)
      (Reachable.getVars (Reachable.init (("a=1").toList)))).2.2
    (Res.ok [(("x").toList, [("a=1").toList])]) rfl

/-- Claim C9 counterexample: an unterminated single-quoted value does
*not* panic.  On `a='x` the quote scan finds no closing quote, sets
`varEnd = start + 1`, the exit test compares the opening quote with a
backslash and breaks, and `updateVar` returns successfully, replacing
just the opening quote (`a='x` patched with `Z` yields `a=Zx`). -/
theorem C9_counterexample :
    updateVar ['a', '=', sq, 'x'] (("a").toList) (("Z").toList)
      = .ok ['a', '=', 'Z', 'x'] := by
  decide

/-- Claim C9 (amended): `updateVar` reads the character after `name=`
unconditionally, and the out-of-range panic occurs *exactly* when the
text ends immediately after the first occurrence of `name=` (no value
character at all).  Unterminated quoted values do not panic — the scan
terminates with `varEnd = start + 1` and a garbage replacement. -/
theorem C9_panic_characterization (text name v : Str) :
    updateVar text name v = .outOfRange ↔
      ∃ p, strIndex text (name ++ ['=']) = some p ∧
        text.length = p + name.length + 1 := by
  rw [updateVar_outOfRange_iff, findSpan_outOfRange]

/-- Claim C10: the patcher locates the assignment by a raw substring
search for `name=`, not anchored to the start of a variable name.
Patching `ver` in `pkgver=1\n` silently rewrites `pkgver`'s value
instead of failing with a variable-not-found error, and patching `ver`
in `url="ver=0"\nver=1\n` rewrites the occurrence inside the quoted
value (corrupting it) while leaving the real `ver` assignment alone. -/
theorem C10_substring_match :
    updateVar (("pkgver=1\n").toList) (("ver").toList) (("2").toList)
      = .ok (("pkgver=2\n").toList) ∧
    updateVar (("url=").toList ++ dq :: ("ver=0").toList ++ dq :: ("\nver=1\n").toList)
        (("ver").toList) (("9").toList)
      = .ok (("url=").toList ++ dq :: ("ver=9\nver=1\n").toList) ∧
    updateVar (("pkgver=1\n").toList) (("ver").toList) (("2").toList)
      ≠ .varNotFound := by
  decide


/-! ## Regression checks against the Go test suite -/

example :
    updateVar (("start=1\npkgname=foo\nend=2").toList) (("pkgname").toList)
        (("bar").toList)
      = .ok (("start=1\npkgname=bar\nend=2").toList) := by decide

example :
    updateVar
        (("start=1\npkgname=").toList ++ dq :: ("foo").toList ++ dq :: ("\nend=2").toList)
        (("pkgname").toList) (dq :: ("bar").toList ++ [dq])
      = .ok (("start=1\npkgname=").toList ++ dq :: ("bar").toList
          ++ dq :: ("\nend=2").toList) := by decide

example :
    updateVar (("start=1\npkgname=(foo)\nend=2").toList) (("pkgname").toList)
        (("(bar)").toList)
      = .ok (("start=1\npkgname=(bar)\nend=2").toList) := by decide

example :
    getSources
      [(("source").toList, [("a.tar.gz::https://x/y.tar.gz").toList]),
       (("sha256sums").toList, [("deadbeef").toList])]
      = .ok [{ localName := ("a.tar.gz").toList,
               remoteURL := ("https://x/y.tar.gz").toList,
               hash := ("deadbeef").toList }] := by decide

end MprCli
